import Mathlib

/-!
# Verification of the avtools diarization core

Shallow embedding of the three core operations of the `avtools` repository:

* `coalesce` — the segment-merging loop of `diarize_audio`
  (`src/avtools/pipelines/diarization.py`), which collapses consecutive
  same-speaker raw diarization segments into speaker turns;
* `postProcess` — `post_process_segments_and_transcripts` (same file), which
  aligns transcript chunks to speaker turns by a nearest-end-time greedy scan
  (`np.argmin` over absolute distances, first index on ties), in either
  grouped or ungrouped mode;
* `groupBySpeaker` — `TranscriptionResultData.group_by_speaker`
  (`src/avtools/models.py`), which merges adjacent same-speaker labeled
  chunks, joining texts with a single space.

Timestamps (Python floats) are modelled as exact rationals; the
`sys.float_info.max` sentinel used for an unknown chunk end becomes the
rational value of that float.  Fallible operations return `Option`.
-/

namespace Avtools

/-- A raw diarization segment as produced inside `diarize_audio`:
`{"segment": {"start": .., "end": ..}, "label": ..}` (the `track` key is
never read afterwards and is omitted). -/
structure RawSeg where
  start : ℚ
  stop : ℚ
  label : String
deriving DecidableEq, Repr

/-- A coalesced speaker turn: `{"segment": {"start": .., "end": ..},
"speaker": ..}`. -/
structure Turn where
  start : ℚ
  stop : ℚ
  speaker : String
deriving DecidableEq, Repr

/-- A transcript chunk `{"timestamp": (start, end), "text": ..}` from the ASR
output; the end timestamp may be `None` (unknown), modelled as `none`. -/
structure Chunk where
  start : ℚ
  stop : Option ℚ
  text : String
deriving DecidableEq, Repr

/-- One entry of the list returned by `post_process_segments_and_transcripts`:
a speaker label together with chunk data. -/
structure Pred where
  speaker : String
  start : ℚ
  stop : Option ℚ
  text : String
deriving DecidableEq, Repr

/-! ## Segment coalescing (`diarize_audio`, lines 96–120) -/

/-- The merging loop of `diarize_audio`.  `prev` carries the run's start and
label together with the stop of the most recently visited segment (Python
keeps `prev_segment` fixed and reads the last `cur_segment` at the end; the
two bookkeepings emit identical turns).  On a label change the current run is
closed at the *start* of the changing segment. -/
def coalesceAux (prev : RawSeg) : List RawSeg → List Turn
  | [] => [{ start := prev.start, stop := prev.stop, speaker := prev.label }]
  | cur :: rest =>
    if cur.label ≠ prev.label then
      { start := prev.start, stop := cur.start, speaker := prev.label }
        :: coalesceAux cur rest
    else
      coalesceAux { prev with stop := cur.stop } rest

/-- `diarize_audio`'s segment post-processing: fails (Python: `segments[0]`
raises on an empty list) iff the input is empty. -/
def coalesce : List RawSeg → Option (List Turn)
  | [] => none
  | s :: rest => some (coalesceAux s rest)

/-! ## Chunk alignment (`post_process_segments_and_transcripts`) -/

/-- Exact rational value of `sys.float_info.max`, the sentinel substituted
for an unknown (`None`) chunk end timestamp. -/
def fmax : ℚ := 2 ^ 1024 - 2 ^ 971

/-- The end timestamp used for a chunk by the aligner:
`chunk["timestamp"][-1] if ... is not None else sys.float_info.max`. -/
def chunkEnd (c : Chunk) : ℚ := c.stop.getD fmax

/-- Index of the first minimum of a list of rationals (`np.argmin`: ties are
resolved to the smallest index). -/
def argminList : List ℚ → Nat
  | [] => 0
  | [_] => 0
  | x :: y :: ys =>
    if x ≤ (y :: ys).getD (argminList (y :: ys)) 0 then 0
    else argminList (y :: ys) + 1

/-- Executable absolute value on ℚ (agrees with `|·|`, see
`ratAbs_eq_abs`). -/
def ratAbs (x : ℚ) : ℚ := if x < 0 then -x else x

/-- The absolute distance `np.abs(end_timestamps - end_time)` between a
chunk's (possibly sentinel) end and a turn end `t`. -/
def chunkDist (t : ℚ) (c : Chunk) : ℚ := ratAbs (chunkEnd c - t)

/-- The cut index chosen for a turn ending at `t` over the remaining chunks:
`np.argmin(np.abs(end_timestamps - end_time))`. -/
def claimIdx (t : ℚ) (cs : List Chunk) : Nat :=
  argminList (cs.map (chunkDist t))

/-- Default chunk used only to total `List.getD` lookups whose index is
always in bounds. -/
def dfltChunk : Chunk := { start := 0, stop := none, text := "" }

/-- The entries appended to `segmented_preds` for one turn over the remaining
chunks `cl`: in grouped mode one entry spanning
`(transcript[0]["timestamp"][0], transcript[upto_idx]["timestamp"][1])` with
the claimed texts joined by `""`, in ungrouped mode one speaker-tagged entry
per claimed chunk. -/
def alignEntries (seg : Turn) (cl : List Chunk) (g : Bool) : List Pred :=
  let k := claimIdx seg.stop cl
  if g then
    [{ speaker := seg.speaker, start := (cl.headD dfltChunk).start,
       stop := (cl.getD k dfltChunk).stop,
       text := String.join ((cl.take (k + 1)).map Chunk.text) }]
  else
    (cl.take (k + 1)).map fun c =>
      { speaker := seg.speaker, start := c.start, stop := c.stop,
        text := c.text }

/-- `post_process_segments_and_transcripts(new_segments, transcript,
group_by_speaker)`.  Each turn claims the prefix of the remaining chunks up
to `claimIdx`; the loop breaks when the chunks run out, and returns when the
turns run out.  `np.argmin` on an empty array raises, hence `none` when a
turn is processed with no chunks left. -/
def postProcess : List Turn → List Chunk → Bool → Option (List Pred)
  | [], _, _ => some []
  | _ :: _, [], _ => none
  | seg :: ts, c0 :: cs, g =>
    let cl : List Chunk := c0 :: cs
    let k := claimIdx seg.stop cl
    if cl.drop (k + 1) = [] then some (alignEntries seg cl g)
    else (postProcess ts (cl.drop (k + 1)) g).map (alignEntries seg cl g ++ ·)

/-- The chunks actually consumed ("claimed") by the aligner, in order: the
concatenation of the per-turn claimed prefixes, following exactly the
consumption pattern of `postProcess` (which is independent of the mode). -/
def claimedChunks : List Turn → List Chunk → List Chunk
  | [], _ => []
  | _ :: _, [] => []
  | seg :: ts, c0 :: cs =>
    let cl : List Chunk := c0 :: cs
    let k := claimIdx seg.stop cl
    cl.take (k + 1) ++
      (if cl.drop (k + 1) = [] then [] else claimedChunks ts (cl.drop (k + 1)))

/-! ## Speaker-run grouping (`TranscriptionResultData.group_by_speaker`) -/

/-- A validated `TranscriptionSpeakerData`: `timestamp` (two entries,
modelled as `start`/`stop`), `speaker` and `text`. -/
structure SpeakerData where
  speaker : String
  start : ℚ
  stop : ℚ
  text : String
deriving DecidableEq, Repr

/-- The scan of `group_by_speaker`: `acc` is the run being built
(`new_speaker_chunks[-1]`).  A same-speaker chunk extends the run's end and
appends its text after a single space when the accumulated text is non-empty
(`f" {speaker_chunk.text}"`), else sets it; a different speaker closes the
run. -/
def groupAux (acc : SpeakerData) : List SpeakerData → List SpeakerData
  | [] => [acc]
  | c :: rest =>
    if c.speaker = acc.speaker then
      groupAux { acc with
                 stop := c.stop,
                 text := if acc.text = "" then c.text
                         else acc.text ++ " " ++ c.text } rest
    else
      acc :: groupAux c rest

/-- `TranscriptionResultData.group_by_speaker` restricted to the `speakers`
list (an empty list is returned unchanged, as the method returns `self`).
The first chunk always opens a run whose fields equal the chunk's own
(`current_speaker = None` differs from every label). -/
def groupBySpeaker : List SpeakerData → List SpeakerData
  | [] => []
  | c :: rest => groupAux c rest

/-! ## Auxiliary definitions for the statements and proofs -/

/-- Default segment for totalizing `getD` lookups. -/
def dfltSeg : RawSeg := { start := 0, stop := 0, label := "" }

/-- Default turn for totalizing `getD` lookups. -/
def dfltTurn : Turn := { start := 0, stop := 0, speaker := "" }

/-- The stop of the last element of `l`, or of `prev` when `l` is empty:
the value the merging loop reads as `cur_segment["segment"]["end"]` at the
end of the scan. -/
def lastStopFrom (prev : RawSeg) (l : List RawSeg) : ℚ :=
  (l.getLast?.getD prev).stop

/-- Python `str.strip()` on a character list: drop leading and trailing
whitespace. -/
def stripList (l : List Char) : List Char :=
  ((l.dropWhile Char.isWhitespace).reverse.dropWhile Char.isWhitespace).reverse

/-- The `trim_spaces` field validator of `TranscriptionChunkData` /
`TranscriptionResultData`: Python `str.strip()`. -/
def pyStrip (s : String) : String := String.mk (stripList s.data)

/-- A string with no leading or trailing whitespace. -/
def Trimmed (s : String) : Prop := pyStrip s = s

/-- Constructing a validated `TranscriptionSpeakerData`: the `text` field
passes through the `trim_spaces` validator. -/
def mkSpeakerData (speaker : String) (a b : ℚ) (text : String) :
    SpeakerData :=
  { speaker := speaker, start := a, stop := b, text := pyStrip text }

/-- Re-validation of an aligner output entry as a
`TranscriptionSpeakerData` (pydantic model validation trims the text; a
`None` end would be rejected by `list[float]`, totalized here by `getD`). -/
def toSpeakerData (p : Pred) : SpeakerData :=
  { speaker := p.speaker, start := p.start, stop := p.stop.getD 0,
    text := pyStrip p.text }

/-- The speaker and interval boundaries of a grouped entry (its text
dropped). -/
def boundary (s : SpeakerData) : String × ℚ × ℚ := (s.speaker, s.start, s.stop)

/-- A chunk tagged with a speaker and re-validated: the composite of the
ungrouped aligner entry and `toSpeakerData`. -/
def tagChunk (sp : String) (c : Chunk) : SpeakerData :=
  { speaker := sp, start := c.start, stop := c.stop.getD 0,
    text := pyStrip c.text }

end Avtools

namespace Avtools

/-! ## First-argmin characterization -/

theorem ratAbs_eq_abs (x : ℚ) : ratAbs x = |x| := by
  rw [ratAbs]
  split
  · exact (abs_of_neg (by assumption)).symm
  · exact (abs_of_nonneg (le_of_not_lt (by assumption))).symm

theorem argminList_lt_length : ∀ (l : List ℚ), l ≠ [] → argminList l < l.length := by
  intro l
  induction l with
  | nil => intro h; exact absurd rfl h
  | cons x xs ih =>
    intro _
    cases xs with
    | nil => simp [argminList]
    | cons y ys =>
      simp only [argminList]
      split
      · simp
      · have := ih (by simp)
        simpa using Nat.succ_lt_succ this

theorem argminList_le : ∀ (l : List ℚ), ∀ j < l.length,
    l.getD (argminList l) 0 ≤ l.getD j 0 := by
  intro l
  induction l with
  | nil => intro j hj; simp at hj
  | cons x xs ih =>
    intro j hj
    cases xs with
    | nil =>
      have hj0 : j = 0 := by simpa using Nat.lt_one_iff.mp (by simpa using hj)
      subst hj0
      simp [argminList]
    | cons y ys =>
      simp only [argminList]
      split
      · rename_i hle
        cases j with
        | zero => simp
        | succ j =>
          simp only [List.getD_cons_succ, List.getD_cons_zero]
          exact le_trans hle (ih j (by simpa using hj))
      · rename_i hlt
        push_neg at hlt
        cases j with
        | zero =>
          simp only [List.getD_cons_succ, List.getD_cons_zero]
          exact le_of_lt hlt
        | succ j =>
          simp only [List.getD_cons_succ]
          exact ih j (by simpa using hj)

theorem argminList_first : ∀ (l : List ℚ), ∀ j < argminList l,
    l.getD (argminList l) 0 < l.getD j 0 := by
  intro l
  induction l with
  | nil => intro j hj; simp [argminList] at hj
  | cons x xs ih =>
    intro j hj
    cases xs with
    | nil => simp [argminList] at hj
    | cons y ys =>
      simp only [argminList] at hj ⊢
      split at hj
      · omega
      · rename_i hlt
        push_neg at hlt
        rw [if_neg (by push_neg; exact hlt)]
        cases j with
        | zero => simpa using hlt
        | succ j =>
          simp only [List.getD_cons_succ]
          exact ih j (by omega)

theorem getD_map_chunkDist (t : ℚ) (cs : List Chunk) (j : Nat)
    (hj : j < cs.length) :
    (cs.map (chunkDist t)).getD j 0 = chunkDist t (cs.getD j dfltChunk) := by
  rw [List.getD_eq_getElem?_getD, List.getD_eq_getElem?_getD,
    List.getElem?_map]
  rw [List.getElem?_eq_getElem hj]
  simp

theorem claimIdx_lt_length (t : ℚ) (cs : List Chunk) (hne : cs ≠ []) :
    claimIdx t cs < cs.length := by
  have := argminList_lt_length (cs.map (chunkDist t)) (by simpa using hne)
  simpa [claimIdx] using this

theorem claimIdx_le (t : ℚ) (cs : List Chunk) (hne : cs ≠ []) (j : Nat)
    (hj : j < cs.length) :
    chunkDist t (cs.getD (claimIdx t cs) dfltChunk)
      ≤ chunkDist t (cs.getD j dfltChunk) := by
  have hk := claimIdx_lt_length t cs hne
  have h := argminList_le (cs.map (chunkDist t)) j (by simpa using hj)
  rw [show argminList (cs.map (chunkDist t)) = claimIdx t cs from rfl] at h
  rw [getD_map_chunkDist t cs j hj, getD_map_chunkDist t cs _ hk] at h
  exact h

theorem claimIdx_first (t : ℚ) (cs : List Chunk) (hne : cs ≠ []) (j : Nat)
    (hj : j < claimIdx t cs) :
    chunkDist t (cs.getD (claimIdx t cs) dfltChunk)
      < chunkDist t (cs.getD j dfltChunk) := by
  have hk := claimIdx_lt_length t cs hne
  have h := argminList_first (cs.map (chunkDist t)) j (by simpa [claimIdx] using hj)
  rw [show argminList (cs.map (chunkDist t)) = claimIdx t cs from rfl] at h
  rw [getD_map_chunkDist t cs j (lt_trans hj hk), getD_map_chunkDist t cs _ hk] at h
  exact h

end Avtools

namespace Avtools

/-! ## Structural lemmas about `postProcess` -/

theorem postProcess_nil_left (cs : List Chunk) (g : Bool) :
    postProcess [] cs g = some [] := rfl

theorem postProcess_nil_right (seg : Turn) (ts : List Turn) (g : Bool) :
    postProcess (seg :: ts) [] g = none := rfl

theorem postProcess_cons (seg : Turn) (ts : List Turn) (c0 : Chunk)
    (cs : List Chunk) (g : Bool) :
    postProcess (seg :: ts) (c0 :: cs) g =
      if (c0 :: cs).drop (claimIdx seg.stop (c0 :: cs) + 1) = [] then
        some (alignEntries seg (c0 :: cs) g)
      else
        (postProcess ts ((c0 :: cs).drop (claimIdx seg.stop (c0 :: cs) + 1)) g).map
          (alignEntries seg (c0 :: cs) g ++ ·) := rfl

/-- Any successful run on a non-empty chunk list splits as the first turn's
entries followed by the output of the recursive call on the dropped suffix. -/
theorem postProcess_cons_shape (seg : Turn) (ts : List Turn) (c0 : Chunk)
    (cs : List Chunk) (g : Bool) (out : List Pred)
    (hpp : postProcess (seg :: ts) (c0 :: cs) g = some out) :
    ∃ rest, out = alignEntries seg (c0 :: cs) g ++ rest ∧
      (((c0 :: cs).drop (claimIdx seg.stop (c0 :: cs) + 1) = [] ∧ rest = []) ∨
       ((c0 :: cs).drop (claimIdx seg.stop (c0 :: cs) + 1) ≠ [] ∧
        postProcess ts ((c0 :: cs).drop (claimIdx seg.stop (c0 :: cs) + 1)) g
          = some rest)) := by
  rw [postProcess_cons] at hpp
  split at hpp
  · rename_i hdrop
    refine ⟨[], ?_, Or.inl ⟨hdrop, rfl⟩⟩
    simpa using (Option.some_injective _ hpp).symm
  · rename_i hdrop
    obtain ⟨rest, hrest, hmap⟩ := Option.map_eq_some'.mp hpp
    exact ⟨rest, hmap.symm, Or.inr ⟨hdrop, hrest⟩⟩

theorem postProcess_isSome (ts : List Turn) :
    ∀ (cs : List Chunk) (g : Bool), cs ≠ [] →
      (postProcess ts cs g).isSome := by
  induction ts with
  | nil => intro cs g _; simp [postProcess_nil_left]
  | cons seg ts ih =>
    intro cs g hne
    cases cs with
    | nil => exact absurd rfl hne
    | cons c0 cs =>
      rw [postProcess_cons]
      split
      · simp
      · rename_i hdrop
        simpa [Option.isSome_map] using ih _ g hdrop

end Avtools

namespace Avtools

/-- **C3** — For every turn processed by the aligner with non-empty remaining
chunks, the claimed prefix ends at the index `k` among the remaining chunks
whose end time minimizes the absolute distance to the turn's end time; on
ties the smaller index wins (`np.argmin` returns the first minimum), and in
ungrouped mode every remaining chunk with index `≤ k` is emitted tagged with
that turn's speaker. -/
theorem align_claims_nearest_end_prefix
    (seg : Turn) (ts : List Turn) (cs : List Chunk) (out : List Pred)
    (hne : cs ≠ [])
    (hpp : postProcess (seg :: ts) cs false = some out) :
    claimIdx seg.stop cs < cs.length ∧
    (∀ j < cs.length,
      chunkDist seg.stop (cs.getD (claimIdx seg.stop cs) dfltChunk)
        ≤ chunkDist seg.stop (cs.getD j dfltChunk)) ∧
    (∀ j < claimIdx seg.stop cs,
      chunkDist seg.stop (cs.getD (claimIdx seg.stop cs) dfltChunk)
        < chunkDist seg.stop (cs.getD j dfltChunk)) ∧
    (∀ i ≤ claimIdx seg.stop cs,
      out[i]? = some { speaker := seg.speaker,
                       start := (cs.getD i dfltChunk).start,
                       stop := (cs.getD i dfltChunk).stop,
                       text := (cs.getD i dfltChunk).text }) := by
  have hk := claimIdx_lt_length seg.stop cs hne
  refine ⟨hk, claimIdx_le seg.stop cs hne, claimIdx_first seg.stop cs hne, ?_⟩
  cases cs with
  | nil => exact absurd rfl hne
  | cons c0 cs =>
    obtain ⟨rest, hout, _⟩ := postProcess_cons_shape seg ts c0 cs false out hpp
    subst hout
    intro i hi
    have hik : i < claimIdx seg.stop (c0 :: cs) + 1 := Nat.lt_succ_of_le hi
    have hilen : i < (c0 :: cs).length := lt_of_lt_of_le hik hk
    have hlen : (alignEntries seg (c0 :: cs) false).length
        = claimIdx seg.stop (c0 :: cs) + 1 := by
      have h1 : claimIdx seg.stop (c0 :: cs) + 1 ≤ (c0 :: cs).length := hk
      simp [alignEntries, List.length_take, Nat.min_eq_left h1]
      simp only [List.length_cons] at h1
      omega
    rw [List.getElem?_append, if_pos (by rw [hlen]; omega)]
    simp only [alignEntries, Bool.false_eq_true, if_false, List.getElem?_map,
      List.getElem?_take, if_pos hik]
    rw [List.getElem?_eq_getElem hilen]
    simp [List.getD_eq_getElem?_getD, List.getElem?_eq_getElem hilen]

/-- **C6** — The aligner fails exactly when the chunk list is empty while the
turn list is non-empty (`np.argmin` over an empty array raises), and returns
an empty result whenever the turn list is empty (all chunks dropped). -/
theorem align_empty_input_behavior (turns : List Turn) (cs : List Chunk)
    (g : Bool) :
    (postProcess turns cs g = none ↔ turns ≠ [] ∧ cs = []) ∧
    (turns = [] → postProcess turns cs g = some []) := by
  constructor
  · constructor
    · intro hnone
      cases turns with
      | nil => simp [postProcess_nil_left] at hnone
      | cons seg ts =>
        cases cs with
        | nil => exact ⟨List.cons_ne_nil _ _, rfl⟩
        | cons c0 cs =>
          have hs := postProcess_isSome (seg :: ts) (c0 :: cs) g (by simp)
          rw [hnone] at hs
          simp at hs
    · rintro ⟨hts, rfl⟩
      cases turns with
      | nil => exact absurd rfl hts
      | cons seg ts => exact postProcess_nil_right seg ts g
  · rintro rfl
    exact postProcess_nil_left cs g

theorem align_empty_input_behavior_witness :
    ((postProcess [{ start := 0, stop := 1, speaker := "S0" }] [] true = none
        ↔ [({ start := 0, stop := 1, speaker := "S0" } : Turn)] ≠ [] ∧
          ([] : List Chunk) = []) ∧
      ([({ start := 0, stop := 1, speaker := "S0" } : Turn)] = [] →
        postProcess [{ start := 0, stop := 1, speaker := "S0" }] [] true
          = some [])) ∧
    ((postProcess [] [{ start := 0, stop := some 2, text := "hi" }] false
        = none ↔ ([] : List Turn) ≠ [] ∧
          [({ start := 0, stop := some 2, text := "hi" } : Chunk)] = []) ∧
      (([] : List Turn) = [] →
        postProcess [] [{ start := 0, stop := some 2, text := "hi" }] false
          = some [])) :=
  ⟨align_empty_input_behavior [{ start := 0, stop := 1, speaker := "S0" }] [] true,
   align_empty_input_behavior [] [{ start := 0, stop := some 2, text := "hi" }] false⟩

/-- **C9** — The segment coalescer fails exactly on an empty input segment
list (and on nothing else): `segments[0]` raises there, deterministically. -/
theorem coalesce_fails_iff_empty (segs : List RawSeg) :
    coalesce segs = none ↔ segs = [] := by
  cases segs <;> simp [coalesce]

end Avtools

namespace Avtools

theorem align_claims_nearest_end_prefix_witness :
    claimIdx (12 : ℚ) [({ start := 0, stop := some 10, text := "A" } : Chunk)]
        < ([({ start := 0, stop := some 10, text := "A" } : Chunk)]).length ∧
    ([({ speaker := "S0", start := 0, stop := some 10, text := "A" } : Pred)])[0]?
      = some { speaker := "S0", start := 0, stop := some 10, text := "A" } := by
  have h := align_claims_nearest_end_prefix
    { start := 0, stop := 12, speaker := "S0" } []
    [{ start := 0, stop := some 10, text := "A" }]
    [{ speaker := "S0", start := 0, stop := some 10, text := "A" }]
    (by simp) (by decide)
  exact ⟨h.1, h.2.2.2 0 (Nat.le_refl 0)⟩

/-- **C7** — An unknown-end chunk carries the `sys.float_info.max` sentinel,
whose distance to any realistic turn end strictly exceeds that of every
known (finite, in-range) chunk end; hence the aligner never selects an
unknown-end chunk while a known-end chunk remains, and selects one only when
it is the sole remaining chunk (assuming, as the spec does, that only the
last chunk may have an unknown end). -/
theorem align_unknown_end_sentinel (cs : List Chunk) (t : ℚ)
    (hne : cs ≠ []) (ht0 : 0 ≤ t) (ht : 2 * t < fmax)
    (hends : ∀ c ∈ cs, ∀ e : ℚ, c.stop = some e → 0 ≤ e ∧ e < fmax) :
    ((∃ c ∈ cs, c.stop.isSome) →
      ((cs.getD (claimIdx t cs) dfltChunk).stop).isSome) ∧
    ((∀ i : Nat, i + 1 < cs.length → ((cs.getD i dfltChunk).stop).isSome) →
      (cs.getD (claimIdx t cs) dfltChunk).stop = none → cs.length = 1) := by
  have htf : t < fmax := by linarith
  have hmain : (∃ c ∈ cs, c.stop.isSome) →
      ((cs.getD (claimIdx t cs) dfltChunk).stop).isSome := by
    rintro ⟨c, hmem, hsome⟩
    obtain ⟨e, he⟩ := Option.isSome_iff_exists.mp hsome
    obtain ⟨j, hj, hcj⟩ := List.mem_iff_getElem.mp hmem
    have hdj : cs.getD j dfltChunk = c := by
      rw [List.getD_eq_getElem _ _ hj]; exact hcj
    obtain ⟨he0, hef⟩ := hends c hmem e he
    have hdistc : chunkDist t c < fmax - t := by
      have hcee : chunkEnd c = e := by simp [chunkEnd, he]
      rw [chunkDist, ratAbs_eq_abs, hcee, abs_sub_lt_iff]
      constructor <;> linarith
    have hmin := claimIdx_le t cs hne j hj
    rw [hdj] at hmin
    rcases hk : (cs.getD (claimIdx t cs) dfltChunk).stop with _ | e2
    · exfalso
      have hce : chunkEnd (cs.getD (claimIdx t cs) dfltChunk) = fmax := by
        simp only [chunkEnd]
        rw [hk]
        simp
      have hdk : chunkDist t (cs.getD (claimIdx t cs) dfltChunk) = fmax - t := by
        rw [chunkDist, ratAbs_eq_abs, hce]
        rw [abs_of_nonneg (by linarith)]
      rw [hdk] at hmin
      linarith
    · simp
  refine ⟨hmain, ?_⟩
  intro honly hnone
  by_contra hlen
  have h1 : 0 < cs.length := List.length_pos.mpr hne
  have h2 : 0 + 1 < cs.length := by omega
  have hs0 := honly 0 h2
  have hmem0 : cs.getD 0 dfltChunk ∈ cs := by
    rw [List.getD_eq_getElem _ _ h1]
    exact List.getElem_mem _
  have := hmain ⟨cs.getD 0 dfltChunk, hmem0, hs0⟩
  rw [hnone] at this
  simp at this

theorem align_unknown_end_sentinel_witness :
    ([({ start := 0, stop := some 5, text := "a" } : Chunk),
      { start := 6, stop := none, text := "b" }] ≠ []) ∧
    ((([({ start := 0, stop := some 5, text := "a" } : Chunk),
        { start := 6, stop := none, text := "b" }].getD
          (claimIdx 7 [{ start := 0, stop := some 5, text := "a" },
            { start := 6, stop := none, text := "b" }]) dfltChunk).stop).isSome) := by
  have h := align_unknown_end_sentinel
    [{ start := 0, stop := some 5, text := "a" },
     { start := 6, stop := none, text := "b" }] 7
    (by simp) (by norm_num)
    (by rw [fmax]; norm_num)
    (by
      intro c hc e he
      simp only [List.mem_cons, List.not_mem_nil, or_false] at hc
      rcases hc with rfl | rfl
      · have h5 : (5 : ℚ) = e := by simpa using he
        subst h5
        exact ⟨by norm_num, by rw [fmax]; norm_num⟩
      · simp at he)
  refine ⟨by simp, h.1 ?_⟩
  exact ⟨{ start := 0, stop := some 5, text := "a" }, by simp, by simp⟩

end Avtools

namespace Avtools

/-! ## Coalescer: contiguity and coverage -/

theorem lastStopFrom_cons (prev cur : RawSeg) (rest : List RawSeg) :
    lastStopFrom prev (cur :: rest) = lastStopFrom cur rest := by
  cases rest with
  | nil => rfl
  | cons r rs =>
    simp only [lastStopFrom, List.getLast?_cons_cons]
    cases hx : (r :: rs).getLast? with
    | none => simp at hx
    | some x => simp

theorem lastStopFrom_congr (p1 p2 : RawSeg) (l : List RawSeg)
    (h : p1.stop = p2.stop) : lastStopFrom p1 l = lastStopFrom p2 l := by
  cases l with
  | nil => simpa [lastStopFrom] using h
  | cons r rs =>
    simp only [lastStopFrom]
    cases hx : (r :: rs).getLast? with
    | none => simp at hx
    | some x => simp

theorem coalesceAux_head (l : List RawSeg) : ∀ (prev : RawSeg),
    ∃ q ts, coalesceAux prev l
      = { start := prev.start, stop := q, speaker := prev.label } :: ts := by
  induction l with
  | nil => intro prev; exact ⟨prev.stop, [], rfl⟩
  | cons cur rest ih =>
    intro prev
    simp only [coalesceAux]
    by_cases h : cur.label = prev.label
    · rw [if_neg (not_not_intro h)]
      obtain ⟨q, ts, hq⟩ := ih { prev with stop := cur.stop }
      exact ⟨q, ts, hq⟩
    · rw [if_pos h]
      exact ⟨cur.start, _, rfl⟩

theorem coalesceAux_chain (l : List RawSeg) : ∀ (prev : RawSeg),
    List.Chain' (fun a b => a.stop = b.start) (coalesceAux prev l) := by
  induction l with
  | nil => intro prev; simp [coalesceAux]
  | cons cur rest ih =>
    intro prev
    simp only [coalesceAux]
    by_cases h : cur.label = prev.label
    · rw [if_neg (not_not_intro h)]
      exact ih _
    · rw [if_pos h]
      obtain ⟨q, ts, hq⟩ := coalesceAux_head rest cur
      rw [hq]
      refine List.chain'_cons.mpr ⟨rfl, ?_⟩
      rw [← hq]
      exact ih cur

theorem coalesceAux_last (l : List RawSeg) : ∀ (prev : RawSeg),
    ∃ tl, (coalesceAux prev l).getLast? = some tl ∧
      tl.stop = lastStopFrom prev l := by
  induction l with
  | nil => intro prev; exact ⟨_, rfl, rfl⟩
  | cons cur rest ih =>
    intro prev
    rw [lastStopFrom_cons]
    simp only [coalesceAux]
    by_cases h : cur.label = prev.label
    · rw [if_neg (not_not_intro h)]
      obtain ⟨tl, h1, h2⟩ := ih { prev with stop := cur.stop }
      refine ⟨tl, h1, ?_⟩
      rw [h2]
      exact lastStopFrom_congr _ _ _ rfl
    · rw [if_pos h]
      obtain ⟨tl, h1, h2⟩ := ih cur
      obtain ⟨q, ts, hq⟩ := coalesceAux_head rest cur
      refine ⟨tl, ?_, h2⟩
      rw [hq, List.getLast?_cons_cons, ← hq]
      exact h1

theorem coalesceAux_wf (l : List RawSeg) : ∀ (prev : RawSeg),
    prev.start ≤ prev.stop →
    List.Chain' (fun a b => a.stop ≤ b.start) (prev :: l) →
    (∀ s ∈ l, s.start ≤ s.stop) →
    ∀ t ∈ coalesceAux prev l, t.start ≤ t.stop := by
  induction l with
  | nil =>
    intro prev hps _ _ t ht
    simp only [coalesceAux, List.mem_singleton] at ht
    subst ht
    exact hps
  | cons cur rest ih =>
    intro prev hps hchain hmem
    have hrel : prev.stop ≤ cur.start := (List.chain'_cons.mp hchain).1
    have hchain2 : List.Chain' (fun a b => a.stop ≤ b.start) (cur :: rest) :=
      (List.chain'_cons.mp hchain).2
    have hcur : cur.start ≤ cur.stop := hmem cur (by simp)
    simp only [coalesceAux]
    by_cases h : cur.label = prev.label
    · rw [if_neg (not_not_intro h)]
      intro t ht
      refine ih { prev with stop := cur.stop }
        (by simpa using le_trans (le_trans hps hrel) hcur) ?_
        (fun s hs => hmem s (by simp [hs])) t ht
      cases rest with
      | nil => simp
      | cons r rs =>
        refine List.chain'_cons.mpr ⟨?_, (List.chain'_cons.mp hchain2).2⟩
        simpa using (List.chain'_cons.mp hchain2).1
    · rw [if_pos h]
      intro t ht
      rcases List.mem_cons.mp ht with rfl | ht2
      · simpa using le_trans hps hrel
      · exact ih cur hcur hchain2 (fun s hs => hmem s (by simp [hs])) t ht2

/-- **C2** — On a non-empty, valid (nonnegative, well-ordered intervals),
non-overlapping, time-ordered raw segment list, the coalesced speaker turns
are contiguous (each turn's end equals the next turn's start) and cover
exactly the interval from the first segment's start to the last segment's
end; each turn is a well-formed interval. -/
theorem coalesce_contiguous_covering (segs : List RawSeg)
    (hne : segs ≠ [])
    (hval : ∀ s ∈ segs, 0 ≤ s.start ∧ s.start ≤ s.stop)
    (hord : List.Chain' (fun a b => a.stop ≤ b.start) segs) :
    ∃ ts, coalesce segs = some ts ∧ ts ≠ [] ∧
      List.Chain' (fun a b => a.stop = b.start) ts ∧
      (ts.headD dfltTurn).start = (segs.headD dfltSeg).start ∧
      (ts.getLast?.getD dfltTurn).stop = (segs.getLast?.getD dfltSeg).stop ∧
      (∀ t ∈ ts, t.start ≤ t.stop) := by
  cases segs with
  | nil => exact absurd rfl hne
  | cons s rest =>
    refine ⟨coalesceAux s rest, rfl, ?_, coalesceAux_chain rest s, ?_, ?_, ?_⟩
    · obtain ⟨q, ts, hq⟩ := coalesceAux_head rest s
      simp [hq]
    · obtain ⟨q, ts, hq⟩ := coalesceAux_head rest s
      simp [hq]
    · obtain ⟨tl, h1, h2⟩ := coalesceAux_last rest s
      rw [h1]
      have hrhs : ((s :: rest).getLast?.getD dfltSeg).stop
          = lastStopFrom dfltSeg (s :: rest) := rfl
      rw [hrhs, lastStopFrom_cons]
      simpa using h2
    · exact coalesceAux_wf rest s (hval s (by simp)).2 hord
        (fun x hx => (hval x (by simp [hx])).2)

theorem coalesce_contiguous_covering_witness :
    ([({ start := 0, stop := 1, label := "A" } : RawSeg),
      { start := 1, stop := 2, label := "B" },
      { start := 2, stop := 3, label := "B" }] ≠ []) ∧
    ∃ ts, coalesce [({ start := 0, stop := 1, label := "A" } : RawSeg),
        { start := 1, stop := 2, label := "B" },
        { start := 2, stop := 3, label := "B" }] = some ts ∧ ts ≠ [] ∧
      List.Chain' (fun a b => a.stop = b.start) ts ∧
      (ts.headD dfltTurn).start
        = ([({ start := 0, stop := 1, label := "A" } : RawSeg),
            { start := 1, stop := 2, label := "B" },
            { start := 2, stop := 3, label := "B" }].headD dfltSeg).start ∧
      (ts.getLast?.getD dfltTurn).stop
        = ([({ start := 0, stop := 1, label := "A" } : RawSeg),
            { start := 1, stop := 2, label := "B" },
            { start := 2, stop := 3, label := "B" }].getLast?.getD dfltSeg).stop ∧
      (∀ t ∈ ts, t.start ≤ t.stop) :=
  ⟨by simp,
   coalesce_contiguous_covering
     [{ start := 0, stop := 1, label := "A" },
      { start := 1, stop := 2, label := "B" },
      { start := 2, stop := 3, label := "B" }]
     (by simp) (by decide)
     (List.chain'_cons.mpr ⟨by norm_num, List.chain'_cons.mpr
       ⟨by norm_num, List.chain'_singleton _⟩⟩)⟩

end Avtools

namespace Avtools

/-! ## Grouping: run structure and idempotence -/

theorem groupAux_head (l : List SpeakerData) : ∀ (acc : SpeakerData),
    ∃ q t rest2, groupAux acc l
      = { speaker := acc.speaker, start := acc.start, stop := q, text := t }
          :: rest2 := by
  induction l with
  | nil => intro acc; exact ⟨acc.stop, acc.text, [], rfl⟩
  | cons c rest ih =>
    intro acc
    simp only [groupAux]
    by_cases h : c.speaker = acc.speaker
    · rw [if_pos h]
      obtain ⟨q, t, r2, hr⟩ := ih _
      exact ⟨q, t, r2, hr⟩
    · rw [if_neg h]
      exact ⟨acc.stop, acc.text, groupAux c rest, rfl⟩

theorem groupAux_speakers_chain (l : List SpeakerData) : ∀ (acc : SpeakerData),
    List.Chain' (fun a b => a.speaker ≠ b.speaker) (groupAux acc l) := by
  induction l with
  | nil => intro acc; simp [groupAux]
  | cons c rest ih =>
    intro acc
    simp only [groupAux]
    by_cases h : c.speaker = acc.speaker
    · rw [if_pos h]
      exact ih _
    · rw [if_neg h]
      obtain ⟨q, t, r2, hr⟩ := groupAux_head rest c
      rw [hr]
      refine List.chain'_cons.mpr ⟨?_, ?_⟩
      · exact fun hh => h (hh.symm)
      · rw [← hr]
        exact ih c

theorem groupBySpeaker_of_chain : ∀ (l : List SpeakerData),
    List.Chain' (fun a b => a.speaker ≠ b.speaker) l →
    groupBySpeaker l = l := by
  intro l
  induction l with
  | nil => intro _; rfl
  | cons c rest ih =>
    intro h
    cases rest with
    | nil => rfl
    | cons d r2 =>
      have hd : c.speaker ≠ d.speaker := (List.chain'_cons.mp h).1
      show groupAux c (d :: r2) = c :: d :: r2
      simp only [groupAux]
      rw [if_neg (fun hh => hd hh.symm)]
      have h2 := ih ((List.chain'_cons.mp h).2)
      rw [show groupAux d r2 = groupBySpeaker (d :: r2) from rfl, h2]

/-- **C5** — `group_by_speaker` is idempotent: its output has pairwise
distinct adjacent speakers, and re-grouping such a sequence returns it
unchanged. -/
theorem group_idempotent (l : List SpeakerData) :
    groupBySpeaker (groupBySpeaker l) = groupBySpeaker l := by
  cases l with
  | nil => rfl
  | cons c rest =>
    exact groupBySpeaker_of_chain _ (groupAux_speakers_chain rest c)

/-! ## Aligner output monotonicity -/

theorem alignEntries_starts (seg : Turn) (cl : List Chunk) (g : Bool)
    (hne : cl ≠ []) :
    List.Pairwise (fun a b => a.start ≤ b.start) cl →
    (List.Pairwise (fun (a b : Pred) => a.start ≤ b.start)
        (alignEntries seg cl g) ∧
      ∀ p ∈ alignEntries seg cl g,
        ∃ c ∈ cl.take (claimIdx seg.stop cl + 1), p.start = c.start) := by
  intro hpw
  cases g with
  | true =>
    refine ⟨by simp [alignEntries], ?_⟩
    intro p hp
    simp only [alignEntries, if_pos, List.mem_singleton] at hp
    subst hp
    refine ⟨cl.headD dfltChunk, ?_, rfl⟩
    cases cl with
    | nil => exact absurd rfl hne
    | cons c0 cs => simp [List.take_succ_cons]
  | false =>
    constructor
    · simp only [alignEntries, Bool.false_eq_true, if_false]
      rw [List.pairwise_map]
      exact List.Pairwise.sublist (List.take_sublist _ cl) hpw
    · intro p hp
      simp only [alignEntries, Bool.false_eq_true, if_false,
        List.mem_map] at hp
      obtain ⟨c, hc, hpc⟩ := hp
      exact ⟨c, hc, by rw [← hpc]⟩

theorem postProcess_starts (g : Bool) (ts : List Turn) :
    ∀ (cs : List Chunk) (out : List Pred),
      List.Pairwise (fun a b => a.start ≤ b.start) cs →
      postProcess ts cs g = some out →
      (List.Pairwise (fun (a b : Pred) => a.start ≤ b.start) out ∧
        ∀ p ∈ out, ∃ c ∈ cs, p.start = c.start) := by
  induction ts with
  | nil =>
    intro cs out _ hpp
    rw [postProcess_nil_left] at hpp
    obtain rfl : ([] : List Pred) = out := Option.some_injective _ hpp
    simp
  | cons seg ts ih =>
    intro cs out hpw hpp
    cases cs with
    | nil => rw [postProcess_nil_right] at hpp; exact absurd hpp (by simp)
    | cons c0 cs' =>
      obtain ⟨rest, hout, hcase⟩ := postProcess_cons_shape seg ts c0 cs' g out hpp
      subst hout
      have hne : (c0 :: cs') ≠ [] := by simp
      obtain ⟨hepw, hemem⟩ := alignEntries_starts seg (c0 :: cs') g hne hpw
      have htakemem : ∀ c ∈ (c0 :: cs').take (claimIdx seg.stop (c0 :: cs') + 1),
          c ∈ c0 :: cs' := fun c hc => (List.take_sublist _ _).subset hc
      have hsplit := List.take_append_drop (claimIdx seg.stop (c0 :: cs') + 1) (c0 :: cs')
      rcases hcase with ⟨_, rfl⟩ | ⟨_, hrec⟩
      · constructor
        · simpa using hepw
        · intro p hp
          rw [List.append_nil] at hp
          obtain ⟨c, hc, hcs⟩ := hemem p hp
          exact ⟨c, htakemem c hc, hcs⟩
      · obtain ⟨hrpw, hrmem⟩ := ih _ rest
          (List.Pairwise.sublist (List.drop_sublist _ (c0 :: cs')) hpw) hrec
        have hdropmem : ∀ c ∈ (c0 :: cs').drop (claimIdx seg.stop (c0 :: cs') + 1),
            c ∈ c0 :: cs' := fun c hc => (List.drop_sublist _ _).subset hc
        have hcross : ∀ a ∈ (c0 :: cs').take (claimIdx seg.stop (c0 :: cs') + 1),
            ∀ b ∈ (c0 :: cs').drop (claimIdx seg.stop (c0 :: cs') + 1),
            a.start ≤ b.start := by
          have := hpw
          rw [← hsplit] at this
          exact (List.pairwise_append.mp this).2.2
        constructor
        · rw [List.pairwise_append]
          refine ⟨hepw, hrpw, ?_⟩
          intro a ha b hb
          obtain ⟨ca, hca, hcas⟩ := hemem a ha
          obtain ⟨cb, hcb, hcbs⟩ := hrmem b hb
          rw [hcas, hcbs]
          exact hcross ca hca cb hcb
        · intro p hp
          rcases List.mem_append.mp hp with hp | hp
          · obtain ⟨c, hc, hcs⟩ := hemem p hp
            exact ⟨c, htakemem c hc, hcs⟩
          · obtain ⟨c, hc, hcs⟩ := hrmem p hp
            exact ⟨c, hdropmem c hc, hcs⟩

/-- **C8** — For valid inputs (turns and chunks each ordered by start time
ascending) and either grouping mode, the `start` values in the aligner's
output are non-decreasing. -/
theorem align_output_starts_monotone (turns : List Turn) (cs : List Chunk)
    (g : Bool) (out : List Pred)
    (_hturns : List.Pairwise (fun a b => a.start ≤ b.start) turns)
    (hchunks : List.Pairwise (fun a b => a.start ≤ b.start) cs)
    (hpp : postProcess turns cs g = some out) :
    List.Pairwise (fun (a b : Pred) => a.start ≤ b.start) out :=
  (postProcess_starts g turns cs out hchunks hpp).1

end Avtools

namespace Avtools

theorem align_output_starts_monotone_witness :
    List.Pairwise (fun (a b : Turn) => a.start ≤ b.start)
      [({ start := 0, stop := 12, speaker := "S0" } : Turn),
       { start := 12, stop := 20, speaker := "S1" }] ∧
    List.Pairwise (fun (a b : Chunk) => a.start ≤ b.start)
      [({ start := 0, stop := some 10, text := "A" } : Chunk),
       { start := 10, stop := some 18, text := "B" },
       { start := 18, stop := some 20, text := "C" }] ∧
    List.Pairwise (fun (a b : Pred) => a.start ≤ b.start)
      [({ speaker := "S0", start := 0, stop := some 10, text := "A" } : Pred),
       { speaker := "S1", start := 10, stop := some 18, text := "B" },
       { speaker := "S1", start := 18, stop := some 20, text := "C" }] :=
  ⟨by decide, by decide,
   align_output_starts_monotone
     [{ start := 0, stop := 12, speaker := "S0" },
      { start := 12, stop := 20, speaker := "S1" }]
     [{ start := 0, stop := some 10, text := "A" },
      { start := 10, stop := some 18, text := "B" },
      { start := 18, stop := some 20, text := "C" }]
     false
     [{ speaker := "S0", start := 0, stop := some 10, text := "A" },
      { speaker := "S1", start := 10, stop := some 18, text := "B" },
      { speaker := "S1", start := 18, stop := some 20, text := "C" }]
     (by decide) (by decide)
     (by
       norm_num [postProcess, claimIdx, argminList, chunkDist, chunkEnd,
         ratAbs, alignEntries, dfltChunk, String.join]
       simp)⟩

/-! ## Text concatenation through alignment -/

theorem join_cons_str (x : String) (l : List String) :
    String.join (x :: l) = x ++ String.join l := by
  have haux : ∀ (l : List String) (s : String),
      List.foldl (fun r c => r ++ c) s l = s ++ String.join l := by
    intro l
    induction l with
    | nil => intro s; simp [String.join, String.append_empty]
    | cons y ys ih =>
      intro s
      show List.foldl (fun r c => r ++ c) (s ++ y) ys = _
      rw [ih (s ++ y)]
      have h2 : String.join (y :: ys) = ("" ++ y) ++ String.join ys := by
        show List.foldl (fun r c => r ++ c) ("" ++ y) ys = _
        rw [ih ("" ++ y)]
      rw [h2, String.empty_append, String.append_assoc]
  show List.foldl (fun r c => r ++ c) ("" ++ x) l = _
  rw [haux l ("" ++ x), String.empty_append]

theorem join_append_str (a b : List String) :
    String.join (a ++ b) = String.join a ++ String.join b := by
  induction a with
  | nil => simp [String.join, String.empty_append]
  | cons x xs ih =>
    rw [List.cons_append, join_cons_str, ih, join_cons_str,
      String.append_assoc]

theorem alignEntries_text_join (seg : Turn) (cl : List Chunk) (g : Bool) :
    String.join ((alignEntries seg cl g).map Pred.text)
      = String.join ((cl.take (claimIdx seg.stop cl + 1)).map Chunk.text) := by
  cases g with
  | true =>
    simp only [alignEntries, if_pos, List.map_cons, List.map_nil]
    rw [join_cons_str]
    simp [String.join, String.append_empty]
  | false =>
    simp only [alignEntries, Bool.false_eq_true, if_false, List.map_map]
    rfl

/-- **C4** — In either grouping mode, the concatenation of the `text` fields
over the aligner's output equals the concatenation of the claimed input
chunks' texts, in order: no claimed text is duplicated or lost (grouped mode
joins with the empty separator). -/
theorem align_text_concat_eq_claimed (turns : List Turn) (cs : List Chunk)
    (g : Bool) (out : List Pred)
    (hpp : postProcess turns cs g = some out) :
    String.join (out.map Pred.text)
      = String.join ((claimedChunks turns cs).map Chunk.text) := by
  induction turns generalizing cs out with
  | nil =>
    rw [postProcess_nil_left] at hpp
    obtain rfl : ([] : List Pred) = out := Option.some_injective _ hpp
    rfl
  | cons seg ts ih =>
    cases cs with
    | nil => rw [postProcess_nil_right] at hpp; exact absurd hpp (by simp)
    | cons c0 cs' =>
      obtain ⟨rest, hout, hcase⟩ := postProcess_cons_shape seg ts c0 cs' g out hpp
      subst hout
      rcases hcase with ⟨hdrop, rfl⟩ | ⟨hdrop, hrec⟩
      · rw [List.append_nil]
        show _ = String.join ((claimedChunks (seg :: ts) (c0 :: cs')).map Chunk.text)
        simp only [claimedChunks, hdrop, if_pos, List.append_nil]
        exact alignEntries_text_join seg (c0 :: cs') g
      · show _ = String.join ((claimedChunks (seg :: ts) (c0 :: cs')).map Chunk.text)
        simp only [claimedChunks, if_neg hdrop]
        rw [List.map_append, join_append_str, List.map_append, join_append_str,
          alignEntries_text_join seg (c0 :: cs') g, ih _ rest hrec]

theorem align_text_concat_eq_claimed_witness :
    postProcess
        [({ start := 0, stop := 12, speaker := "S0" } : Turn),
         { start := 12, stop := 20, speaker := "S1" }]
        [({ start := 0, stop := some 10, text := "A" } : Chunk),
         { start := 10, stop := some 18, text := "B" },
         { start := 18, stop := some 20, text := "C" }] true
      = some [({ speaker := "S0", start := 0, stop := some 10, text := "A" } : Pred),
              { speaker := "S1", start := 10, stop := some 20, text := "BC" }] ∧
    String.join
        (([({ speaker := "S0", start := 0, stop := some 10, text := "A" } : Pred),
           { speaker := "S1", start := 10, stop := some 20, text := "BC" }]).map Pred.text)
      = String.join
          ((claimedChunks
              [({ start := 0, stop := 12, speaker := "S0" } : Turn),
               { start := 12, stop := 20, speaker := "S1" }]
              [({ start := 0, stop := some 10, text := "A" } : Chunk),
               { start := 10, stop := some 18, text := "B" },
               { start := 18, stop := some 20, text := "C" }]).map Chunk.text) :=
  ⟨by
     norm_num [postProcess, claimIdx, argminList, chunkDist, chunkEnd,
       ratAbs, alignEntries, dfltChunk, String.join]
     simp,
   align_text_concat_eq_claimed
     [{ start := 0, stop := 12, speaker := "S0" },
      { start := 12, stop := 20, speaker := "S1" }]
     [{ start := 0, stop := some 10, text := "A" },
      { start := 10, stop := some 18, text := "B" },
      { start := 18, stop := some 20, text := "C" }] true
     [{ speaker := "S0", start := 0, stop := some 10, text := "A" },
      { speaker := "S1", start := 10, stop := some 20, text := "BC" }]
     (by
       norm_num [postProcess, claimIdx, argminList, chunkDist, chunkEnd,
         ratAbs, alignEntries, dfltChunk, String.join]
       simp)⟩

end Avtools

namespace Avtools

/-! ## Text trimming (`trim_spaces` validator) and its preservation -/

theorem head_of_dropWhile_false (p : Char → Bool) (l : List Char) (c : Char)
    (h : (l.dropWhile p).head? = some c) : p c = false := by
  have h2 := List.head?_dropWhile_not p l
  rw [h] at h2
  exact h2

theorem dropWhile_eq_self_of_head (p : Char → Bool) (l : List Char)
    (h : ∀ c, l.head? = some c → p c = false) : l.dropWhile p = l := by
  cases l with
  | nil => rfl
  | cons x xs =>
    rw [List.dropWhile_cons]
    simp [h x rfl]

theorem getLast_of_dropWhile (p : Char → Bool) (l : List Char)
    (h : l.dropWhile p ≠ []) : (l.dropWhile p).getLast? = l.getLast? := by
  induction l with
  | nil => simp at h
  | cons x xs ih =>
    rw [List.dropWhile_cons] at h ⊢
    by_cases hx : p x = true
    · rw [if_pos hx] at h ⊢
      rw [ih h]
      cases xs with
      | nil => simp [List.dropWhile] at h
      | cons y ys => rw [List.getLast?_cons_cons]
    · rw [if_neg hx]

theorem stripList_head_not_ws (l : List Char) (c : Char)
    (h : (stripList l).head? = some c) : Char.isWhitespace c = false := by
  rw [stripList, List.head?_reverse] at h
  have hne : (l.dropWhile Char.isWhitespace).reverse.dropWhile
      Char.isWhitespace ≠ [] := by
    intro h0
    rw [h0] at h
    simp at h
  rw [getLast_of_dropWhile _ _ hne, List.getLast?_reverse] at h
  exact head_of_dropWhile_false _ _ _ h

theorem stripList_getLast_not_ws (l : List Char) (c : Char)
    (h : (stripList l).getLast? = some c) : Char.isWhitespace c = false := by
  rw [stripList, List.getLast?_reverse] at h
  exact head_of_dropWhile_false _ _ _ h

theorem stripList_of_clean (l : List Char)
    (h1 : ∀ c, l.head? = some c → Char.isWhitespace c = false)
    (h2 : ∀ c, l.getLast? = some c → Char.isWhitespace c = false) :
    stripList l = l := by
  rw [stripList, dropWhile_eq_self_of_head _ _ h1,
    dropWhile_eq_self_of_head]
  · exact List.reverse_reverse l
  · intro c hc
    rw [List.head?_reverse] at hc
    exact h2 c hc

theorem stripList_idem (l : List Char) :
    stripList (stripList l) = stripList l :=
  stripList_of_clean _ (stripList_head_not_ws l) (stripList_getLast_not_ws l)

theorem trimmed_iff_data (s : String) :
    Trimmed s ↔ stripList s.data = s.data := by
  cases s with
  | mk d =>
    constructor
    · intro h
      exact congrArg String.data h
    · intro h
      show String.mk (stripList d) = String.mk d
      rw [show stripList d = d from h]

theorem pyStrip_trimmed (s : String) : Trimmed (pyStrip s) := by
  rw [trimmed_iff_data]
  exact stripList_idem s.data

theorem str_ne_empty_iff (s : String) : s ≠ "" ↔ s.data ≠ [] := by
  cases s with
  | mk d =>
    constructor
    · intro h hd
      apply h
      rw [show d = ([] : List Char) from hd]
    · intro h he
      apply h
      simpa using congrArg String.data he

theorem trimmed_append_space (a b : String)
    (ha : Trimmed a) (hna : a ≠ "") (hb : Trimmed b) (hnb : b ≠ "") :
    Trimmed (a ++ " " ++ b) ∧ (a ++ " " ++ b) ≠ "" := by
  have hda := (trimmed_iff_data a).mp ha
  have hdb := (trimmed_iff_data b).mp hb
  have hna2 : a.data ≠ [] := (str_ne_empty_iff a).mp hna
  have hnb2 : b.data ≠ [] := (str_ne_empty_iff b).mp hnb
  have hdata : (a ++ " " ++ b).data = a.data ++ ' ' :: b.data := by
    rw [String.data_append, String.data_append]
    simp
  constructor
  · rw [trimmed_iff_data, hdata]
    apply stripList_of_clean
    · intro c hc
      rw [List.head?_append] at hc
      cases hhd : a.data.head? with
      | none =>
        rw [List.head?_eq_none_iff] at hhd
        exact absurd hhd hna2
      | some x =>
        rw [hhd] at hc
        simp only [Option.or_some] at hc
        obtain rfl : x = c := by simpa using hc
        apply stripList_head_not_ws a.data
        rw [hda]
        exact hhd
    · intro c hc
      rw [List.getLast?_append] at hc
      have hlb : (' ' :: b.data).getLast? = b.data.getLast? := by
        cases hbd : b.data with
        | nil => exact absurd hbd hnb2
        | cons y ys => exact List.getLast?_cons_cons
      rw [hlb] at hc
      cases hlast : b.data.getLast? with
      | none =>
        rw [List.getLast?_eq_none_iff] at hlast
        exact absurd hlast hnb2
      | some x =>
        rw [hlast] at hc
        simp only [Option.or_some] at hc
        obtain rfl : x = c := by simpa using hc
        apply stripList_getLast_not_ws b.data
        rw [hdb]
        exact hlast
  · rw [str_ne_empty_iff, hdata]
    simp

theorem groupAux_trimmed (l : List SpeakerData) : ∀ (acc : SpeakerData),
    Trimmed acc.text → acc.text ≠ "" →
    (∀ x ∈ l, Trimmed x.text ∧ x.text ≠ "") →
    ∀ gc ∈ groupAux acc l, Trimmed gc.text := by
  induction l with
  | nil =>
    intro acc hat _ _ gc hgc
    simp only [groupAux, List.mem_singleton] at hgc
    subst hgc
    exact hat
  | cons c rest ih =>
    intro acc hat hane hall gc hgc
    have hc := hall c (by simp)
    simp only [groupAux] at hgc
    by_cases h : c.speaker = acc.speaker
    · rw [if_pos h] at hgc
      have hmix := trimmed_append_space acc.text c.text hat hane hc.1 hc.2
      refine ih _ ?_ ?_ (fun x hx => hall x (by simp [hx])) gc hgc
      · show Trimmed (if acc.text = "" then c.text
            else acc.text ++ " " ++ c.text)
        rw [if_neg hane]
        exact hmix.1
      · show (if acc.text = "" then c.text
            else acc.text ++ " " ++ c.text) ≠ ""
        rw [if_neg hane]
        exact hmix.2
    · rw [if_neg h] at hgc
      rcases List.mem_cons.mp hgc with rfl | hgc2
      · exact hat
      · exact ih c hc.1 hc.2 (fun x hx => hall x (by simp [hx])) gc hgc2

/-- **C10 (amended)** — Every text passing the `trim_spaces` validator is
trimmed, and `group_by_speaker` preserves trimmedness provided every merged
chunk's text is non-empty.  (The unamended claim fails: merging a chunk with
empty text appends `" "` to a non-empty accumulated text, gaining a trailing
space — see the counterexample.) -/
theorem group_trimmed_invariant (speaker : String) (a b : ℚ) (raw : String)
    (l : List SpeakerData)
    (hall : ∀ x ∈ l, Trimmed x.text ∧ x.text ≠ "") :
    Trimmed (mkSpeakerData speaker a b raw).text ∧
    ∀ gc ∈ groupBySpeaker l, Trimmed gc.text := by
  refine ⟨pyStrip_trimmed raw, ?_⟩
  cases l with
  | nil =>
    intro gc hgc
    simp [groupBySpeaker] at hgc
  | cons c rest =>
    have hc := hall c (by simp)
    exact groupAux_trimmed rest c hc.1 hc.2 (fun x hx => hall x (by simp [hx]))

theorem group_trimmed_invariant_witness :
    Trimmed (mkSpeakerData "S0" 0 1 "  hi  ").text ∧
    ∀ gc ∈ groupBySpeaker
        [({ speaker := "S0", start := 0, stop := 1, text := "A" } : SpeakerData),
         { speaker := "S0", start := 1, stop := 2, text := "B" }],
      Trimmed gc.text :=
  group_trimmed_invariant "S0" 0 1 "  hi  "
    [{ speaker := "S0", start := 0, stop := 1, text := "A" },
     { speaker := "S0", start := 1, stop := 2, text := "B" }]
    (by
      intro x hx
      simp only [List.mem_cons, List.not_mem_nil, or_false] at hx
      rcases hx with rfl | rfl
      · exact ⟨rfl, by decide⟩
      · exact ⟨rfl, by decide⟩)

/-- **C10 counterexample** — With trimmed inputs one of which has empty
text, `group_by_speaker` produces the text `"A "` with a trailing space:
the merged text is not trimmed, refuting the unamended claim. -/
theorem group_trailing_space_counterexample :
    (∀ x ∈ [({ speaker := "S0", start := 0, stop := 1, text := "A" } : SpeakerData),
            { speaker := "S0", start := 1, stop := 2, text := "" }],
       Trimmed x.text) ∧
    (groupBySpeaker
        [({ speaker := "S0", start := 0, stop := 1, text := "A" } : SpeakerData),
         { speaker := "S0", start := 1, stop := 2, text := "" }]).map
        SpeakerData.text
      = ["A "] ∧
    ¬ Trimmed "A " := by
  refine ⟨?_, rfl, ?_⟩
  · intro x hx
    simp only [List.mem_cons, List.not_mem_nil, or_false] at hx
    rcases hx with rfl | rfl
    · exact rfl
    · exact rfl
  · intro h
    exact absurd ((rfl : ("A" : String) = pyStrip "A ").trans h) (by decide)

end Avtools

namespace Avtools

/-! ## Round trip: align ungrouped + group vs align grouped -/

theorem getLast?_cons_getD {α : Type} (b0 : α) (blk : List α) :
    (b0 :: blk).getLast? = some (blk.getLast?.getD b0) := by
  cases blk with
  | nil => rfl
  | cons u us =>
    rw [List.getLast?_cons_cons]
    cases hx : (u :: us).getLast? with
    | none => simp at hx
    | some x => simp

theorem getLast?_take_succ {α : Type} : ∀ (l : List α) (k : Nat) (d : α),
    k < l.length → (l.take (k + 1)).getLast? = some (l.getD k d) := by
  intro l
  induction l with
  | nil => intro k d hk; simp at hk
  | cons x xs ih =>
    intro k d hk
    cases k with
    | zero =>
      rw [List.take_succ_cons, List.take_zero]
      rfl
    | succ j =>
      rw [List.take_succ_cons, List.getD_cons_succ]
      have h2 := ih j d (by simpa using hk)
      rw [← h2]
      have hne : xs.take (j + 1) ≠ [] := by
        have hj : j < xs.length := by simpa using hk
        cases hxs : xs with
        | nil => rw [hxs] at hj; simp at hj
        | cons y ys => simp [List.take_succ_cons]
      cases hxt : xs.take (j + 1) with
      | nil => exact absurd hxt hne
      | cons u us => exact List.getLast?_cons_cons

theorem groupAux_absorb_block : ∀ (block : List SpeakerData)
    (acc : SpeakerData) (tail : List SpeakerData),
    (∀ x ∈ block, x.speaker = acc.speaker) →
    ∃ txt, groupAux acc (block ++ tail)
      = groupAux { speaker := acc.speaker, start := acc.start,
                   stop := (block.getLast?.getD acc).stop, text := txt }
          tail := by
  intro block
  induction block with
  | nil =>
    intro acc tail _
    exact ⟨acc.text, rfl⟩
  | cons bhd btl ih =>
    intro acc tail hall
    have hsp : bhd.speaker = acc.speaker := hall bhd (by simp)
    rw [List.cons_append]
    simp only [groupAux]
    rw [if_pos hsp]
    obtain ⟨txt, htxt⟩ := ih
      { acc with
        stop := bhd.stop,
        text := if acc.text = "" then bhd.text
                else acc.text ++ " " ++ bhd.text } tail
      (fun x hx => hall x (by simp [hx]))
    refine ⟨txt, ?_⟩
    rw [htxt]
    have hstop : (btl.getLast?.getD
          { acc with
            stop := bhd.stop,
            text := if acc.text = "" then bhd.text
                    else acc.text ++ " " ++ bhd.text }).stop
        = ((bhd :: btl).getLast?.getD acc).stop := by
      cases btl with
      | nil => simp
      | cons u us =>
        rw [List.getLast?_cons_cons]
        cases hx : (u :: us).getLast? with
        | none => simp at hx
        | some x => simp
    rw [hstop]

theorem groupAux_ne_head (acc d : SpeakerData) (r : List SpeakerData)
    (h : d.speaker ≠ acc.speaker) :
    groupAux acc (d :: r) = acc :: groupBySpeaker (d :: r) := by
  simp only [groupAux, groupBySpeaker]
  rw [if_neg h]

theorem group_tagged_block (sp : String) (cl : List Chunk) (k : Nat)
    (hk : k < cl.length) (tail : List SpeakerData) :
    ∃ txt, groupBySpeaker ((cl.take (k + 1)).map (tagChunk sp) ++ tail)
      = groupAux { speaker := sp, start := (cl.headD dfltChunk).start,
                   stop := (cl.getD k dfltChunk).stop.getD 0,
                   text := txt } tail := by
  cases cl with
  | nil => simp at hk
  | cons c0 cs =>
    have hlast : ((cs.take k).map (tagChunk sp)).getLast?.getD (tagChunk sp c0)
        = tagChunk sp ((c0 :: cs).getD k dfltChunk) := by
      have h1 : ((c0 :: cs).take (k + 1)).getLast?
          = some ((c0 :: cs).getD k dfltChunk) :=
        getLast?_take_succ _ _ _ hk
      rw [List.take_succ_cons, getLast?_cons_getD] at h1
      have h2 := Option.some_injective _ h1
      rw [List.getLast?_map]
      cases hx : (cs.take k).getLast? with
      | none =>
        rw [hx] at h2
        simpa using congrArg (tagChunk sp) h2
      | some x =>
        rw [hx] at h2
        simpa using congrArg (tagChunk sp) h2
    obtain ⟨txt, habs⟩ := groupAux_absorb_block ((cs.take k).map (tagChunk sp))
      (tagChunk sp c0) tail
      (by
        intro x hx
        simp only [List.mem_map] at hx
        obtain ⟨c, _, rfl⟩ := hx
        rfl)
    refine ⟨txt, ?_⟩
    show groupAux (tagChunk sp c0) ((cs.take k).map (tagChunk sp) ++ tail) = _
    rw [habs, hlast]
    rfl

theorem postProcess_false_head (seg : Turn) (ts : List Turn)
    (cs : List Chunk) (out : List Pred)
    (hpp : postProcess (seg :: ts) cs false = some out) :
    ∃ c crest outtl, cs = c :: crest ∧
      out = { speaker := seg.speaker, start := c.start,
              stop := c.stop, text := c.text } :: outtl := by
  cases cs with
  | nil => rw [postProcess_nil_right] at hpp; exact absurd hpp (by simp)
  | cons c0 cs' =>
    obtain ⟨rest, hout, _⟩ := postProcess_cons_shape seg ts c0 cs' false out hpp
    subst hout
    refine ⟨c0, cs', (cs'.take (claimIdx seg.stop (c0 :: cs'))).map
      (fun c => { speaker := seg.speaker, start := c.start, stop := c.stop,
                  text := c.text }) ++ rest, rfl, ?_⟩
    simp only [alignEntries, Bool.false_eq_true, if_false,
      List.take_succ_cons, List.map_cons, List.cons_append]

end Avtools

namespace Avtools

/-- **C1 (amended)** — Aligning ungrouped and then grouping yields the same
speakers and interval boundaries as aligning with `group_by_speaker=True`
directly, for any turn sequence with pairwise-distinct adjacent speakers
(as produced by the coalescer).  The full results are *not* equal in
general: the direct path joins claimed texts with no separator while
`group` joins them with a single space — see the counterexample. -/
theorem align_group_roundtrip_boundaries : ∀ (turns : List Turn)
    (cs : List Chunk) (outF outT : List Pred),
    List.Chain' (fun a b => a.speaker ≠ b.speaker) turns →
    postProcess turns cs false = some outF →
    postProcess turns cs true = some outT →
    (groupBySpeaker (outF.map toSpeakerData)).map boundary
      = (outT.map toSpeakerData).map boundary := by
  intro turns
  induction turns with
  | nil =>
    intro cs outF outT _ hF hT
    rw [postProcess_nil_left] at hF hT
    obtain rfl : ([] : List Pred) = outF := Option.some_injective _ hF
    obtain rfl : ([] : List Pred) = outT := Option.some_injective _ hT
    rfl
  | cons seg ts ih =>
    intro cs outF outT hch hF hT
    cases cs with
    | nil => rw [postProcess_nil_right] at hF; exact absurd hF (by simp)
    | cons c0 cs' =>
      obtain ⟨restF, houtF, hcaseF⟩ :=
        postProcess_cons_shape seg ts c0 cs' false outF hF
      obtain ⟨restT, houtT, hcaseT⟩ :=
        postProcess_cons_shape seg ts c0 cs' true outT hT
      subst houtF
      subst houtT
      have hklt : claimIdx seg.stop (c0 :: cs') < (c0 :: cs').length :=
        claimIdx_lt_length _ _ (by simp)
      have hEF : (alignEntries seg (c0 :: cs') false).map toSpeakerData
          = ((c0 :: cs').take (claimIdx seg.stop (c0 :: cs') + 1)).map
              (tagChunk seg.speaker) := by
        simp only [alignEntries, Bool.false_eq_true, if_false, List.map_map]
        rfl
      have hET : alignEntries seg (c0 :: cs') true
          = [{ speaker := seg.speaker,
               start := ((c0 :: cs').headD dfltChunk).start,
               stop := ((c0 :: cs').getD (claimIdx seg.stop (c0 :: cs'))
                 dfltChunk).stop,
               text := String.join (((c0 :: cs').take
                 (claimIdx seg.stop (c0 :: cs') + 1)).map Chunk.text) }] := by
        simp [alignEntries]
      rcases hcaseT with ⟨hdrop, rfl⟩ | ⟨hdrop, hrecT⟩
      · rcases hcaseF with ⟨_, rfl⟩ | ⟨hdropF, _⟩
        · rw [List.append_nil, List.append_nil, hEF, hET]
          obtain ⟨txt, hblock⟩ := group_tagged_block seg.speaker (c0 :: cs')
            (claimIdx seg.stop (c0 :: cs')) hklt []
          rw [List.append_nil] at hblock
          rw [hblock]
          rfl
        · exact absurd hdrop hdropF
      · rcases hcaseF with ⟨hdropF, _⟩ | ⟨_, hrecF⟩
        · exact absurd hdropF hdrop
        cases ts with
        | nil =>
          rw [postProcess_nil_left] at hrecF hrecT
          obtain rfl : ([] : List Pred) = restF := Option.some_injective _ hrecF
          obtain rfl : ([] : List Pred) = restT := Option.some_injective _ hrecT
          rw [List.append_nil, List.append_nil, hEF, hET]
          obtain ⟨txt, hblock⟩ := group_tagged_block seg.speaker (c0 :: cs')
            (claimIdx seg.stop (c0 :: cs')) hklt []
          rw [List.append_nil] at hblock
          rw [hblock]
          rfl
        | cons t1 ts' =>
          obtain ⟨ch, chrest, outtl, hcseq, hrestF⟩ :=
            postProcess_false_head t1 ts' _ restF hrecF
          have hnesp : seg.speaker ≠ t1.speaker := (List.chain'_cons.mp hch).1
          have hch2 := (List.chain'_cons.mp hch).2
          rw [List.map_append, hEF]
          obtain ⟨txt, hblock⟩ := group_tagged_block seg.speaker (c0 :: cs')
            (claimIdx seg.stop (c0 :: cs')) hklt (restF.map toSpeakerData)
          rw [hblock]
          rw [hrestF, List.map_cons]
          rw [groupAux_ne_head _ _ _ (fun hh => hnesp hh.symm)]
          rw [← List.map_cons, ← hrestF]
          rw [List.map_cons]
          rw [ih _ restF restT hch2 hrecF hrecT]
          rw [hET]
          rfl

end Avtools

namespace Avtools

/-- **C1 counterexample** — Scenario C inputs: the ungrouped-then-grouped
path yields text `"B C"` for the second speaker (single-space join in
`group_by_speaker`) while the directly-grouped path yields `"BC"` (empty
join in `post_process_segments_and_transcripts`); the two results are not
equal. -/
theorem align_group_roundtrip_counterexample :
    postProcess
        [({ start := 0, stop := 12, speaker := "S0" } : Turn),
         { start := 12, stop := 20, speaker := "S1" }]
        [({ start := 0, stop := some 10, text := "A" } : Chunk),
         { start := 10, stop := some 18, text := "B" },
         { start := 18, stop := some 20, text := "C" }] false
      = some [({ speaker := "S0", start := 0, stop := some 10, text := "A" } : Pred),
              { speaker := "S1", start := 10, stop := some 18, text := "B" },
              { speaker := "S1", start := 18, stop := some 20, text := "C" }] ∧
    postProcess
        [({ start := 0, stop := 12, speaker := "S0" } : Turn),
         { start := 12, stop := 20, speaker := "S1" }]
        [({ start := 0, stop := some 10, text := "A" } : Chunk),
         { start := 10, stop := some 18, text := "B" },
         { start := 18, stop := some 20, text := "C" }] true
      = some [({ speaker := "S0", start := 0, stop := some 10, text := "A" } : Pred),
              { speaker := "S1", start := 10, stop := some 20, text := "BC" }] ∧
    groupBySpeaker
        (([({ speaker := "S0", start := 0, stop := some 10, text := "A" } : Pred),
           { speaker := "S1", start := 10, stop := some 18, text := "B" },
           { speaker := "S1", start := 18, stop := some 20, text := "C" }]).map
          toSpeakerData)
      ≠ ([({ speaker := "S0", start := 0, stop := some 10, text := "A" } : Pred),
          { speaker := "S1", start := 10, stop := some 20, text := "BC" }]).map
          toSpeakerData := by
  refine ⟨?_, ?_, ?_⟩
  · norm_num [postProcess, claimIdx, argminList, chunkDist, chunkEnd,
      ratAbs, alignEntries, dfltChunk, String.join]
    simp
  · norm_num [postProcess, claimIdx, argminList, chunkDist, chunkEnd,
      ratAbs, alignEntries, dfltChunk, String.join]
    simp
  · decide

theorem align_group_roundtrip_boundaries_witness :
    List.Chain' (fun (a b : Turn) => a.speaker ≠ b.speaker)
      [({ start := 0, stop := 12, speaker := "S0" } : Turn),
       { start := 12, stop := 20, speaker := "S1" }] ∧
    (groupBySpeaker
        (([({ speaker := "S0", start := 0, stop := some 10, text := "A" } : Pred),
           { speaker := "S1", start := 10, stop := some 18, text := "B" },
           { speaker := "S1", start := 18, stop := some 20, text := "C" }]).map
          toSpeakerData)).map boundary
      = (([({ speaker := "S0", start := 0, stop := some 10, text := "A" } : Pred),
          { speaker := "S1", start := 10, stop := some 20, text := "BC" }]).map
          toSpeakerData).map boundary :=
  ⟨List.chain'_cons.mpr ⟨by decide, List.chain'_singleton _⟩,
   align_group_roundtrip_boundaries
     [{ start := 0, stop := 12, speaker := "S0" },
      { start := 12, stop := 20, speaker := "S1" }]
     [{ start := 0, stop := some 10, text := "A" },
      { start := 10, stop := some 18, text := "B" },
      { start := 18, stop := some 20, text := "C" }]
     [{ speaker := "S0", start := 0, stop := some 10, text := "A" },
      { speaker := "S1", start := 10, stop := some 18, text := "B" },
      { speaker := "S1", start := 18, stop := some 20, text := "C" }]
     [{ speaker := "S0", start := 0, stop := some 10, text := "A" },
      { speaker := "S1", start := 10, stop := some 20, text := "BC" }]
     (List.chain'_cons.mpr ⟨by decide, List.chain'_singleton _⟩)
     (by
       norm_num [postProcess, claimIdx, argminList, chunkDist, chunkEnd,
         ratAbs, alignEntries, dfltChunk, String.join]
       simp)
     (by
       norm_num [postProcess, claimIdx, argminList, chunkDist, chunkEnd,
         ratAbs, alignEntries, dfltChunk, String.join]
       simp)⟩

end Avtools

namespace Avtools

theorem coalesce_fails_iff_empty_witness :
    (coalesce [] = none ↔ ([] : List RawSeg) = []) ∧
    (coalesce [{ start := 0, stop := 1, label := "A" }] = none
      ↔ [({ start := 0, stop := 1, label := "A" } : RawSeg)] = []) :=
  ⟨coalesce_fails_iff_empty [],
   coalesce_fails_iff_empty [{ start := 0, stop := 1, label := "A" }]⟩

theorem group_idempotent_witness :
    groupBySpeaker (groupBySpeaker
      [({ speaker := "S0", start := 0, stop := 1, text := "A" } : SpeakerData),
       { speaker := "S0", start := 1, stop := 2, text := "B" },
       { speaker := "S1", start := 2, stop := 3, text := "C" }])
      = groupBySpeaker
      [({ speaker := "S0", start := 0, stop := 1, text := "A" } : SpeakerData),
       { speaker := "S0", start := 1, stop := 2, text := "B" },
       { speaker := "S1", start := 2, stop := 3, text := "C" }] :=
  group_idempotent
    [{ speaker := "S0", start := 0, stop := 1, text := "A" },
     { speaker := "S0", start := 1, stop := 2, text := "B" },
     { speaker := "S1", start := 2, stop := 3, text := "C" }]

end Avtools
